import Mathlib

namespace HeaterMonitor

/-- A temperature sample (src/src/storage.rs, `Sample`): the timestamp is modeled as
whole seconds since the Unix epoch (the source's `SystemTime`), the temperature as an
exact rational standing for the carried `f64` scalar (none of the storage or
aggregation claims depends on binary floating-point rounding). -/
structure Sample where
  timestamp : Nat
  temperature : ℚ
deriving DecidableEq

/-- The configuration fields the storage core reads (src/src/config.rs, `Config`):
`max_capacity`, `averaging_interval` (in seconds, `u32` in the source), and whether a
backlog file path is configured (the path itself is irrelevant to the claims). -/
structure Config where
  maxCapacity : Option Nat
  averagingInterval : Nat
  backlog : Bool
deriving DecidableEq

/-- src/src/storage.rs, `Storage`: the sample buffer (`VecDeque<Sample>` modeled as a
list whose head is the deque front), the optional append-only backing file (modeled as
the list of records appended so far; each record carries the whole-second timestamp and
the temperature exactly as `Sample::serialize` writes them), the timestamp of the most
recently accepted sample, the configuration, and the cached most recently stored
sample. -/
structure Storage where
  samples : List Sample
  fileStore : Option (List Sample)
  lastSampleTime : Option Nat
  config : Config
  last : Option Sample
deriving DecidableEq

/-- src/src/storage.rs, `Storage::new`, without backlog replay: replay is a sequence of
`push_raw_sample` calls on the fresh store, covered by `Reachable` below. The file
handle is open (and empty so far as this process's appends go) exactly when a backlog
path is configured. -/
def newStorage (config : Config) : Storage :=
  { samples := []
    fileStore := if config.backlog then some [] else none
    lastSampleTime := none
    config := config
    last := none }

/-- The accepted half of `Storage::push_raw_sample` (src/src/storage.rs lines 123-134):
sets `last_sample_time`, then if a capacity is configured: capacity zero stores
nothing; otherwise evicts the front when `len >= capacity` and appends, updating
`last`. -/
def pushAccepted (st : Storage) (sample : Sample) : Storage :=
  match st.config.maxCapacity with
  | some capacity =>
    if capacity = 0 then { st with lastSampleTime := some sample.timestamp }
    else
      let kept := if st.samples.length ≥ capacity then st.samples.tail else st.samples
      { st with lastSampleTime := some sample.timestamp,
                samples := kept ++ [sample],
                last := some sample }
  | none =>
      { st with lastSampleTime := some sample.timestamp,
                samples := st.samples ++ [sample],
                last := some sample }

/-- src/src/storage.rs, `Storage::push_raw_sample` (lines 115-135): a sample strictly
older than `last_sample_time` is dropped without mutating anything; otherwise the
sample is accepted. -/
def pushRawSample (st : Storage) (sample : Sample) : Storage :=
  match st.lastSampleTime with
  | some lastTime =>
    if lastTime > sample.timestamp then st else pushAccepted st sample
  | none => pushAccepted st sample

/-- src/src/storage.rs, `Storage::add_measurement` (lines 137-154): builds the sample
from the wall clock (`now` is passed explicitly here), appends its serialized record to
the backing file when one is configured (in the model timestamps are at or after the
epoch, so `Sample::serialize` always succeeds), and only then calls
`push_raw_sample`. -/
def addMeasurement (st : Storage) (temp : ℚ) (now : Nat) : Storage :=
  let sample : Sample := { timestamp := now, temperature := temp }
  let st' :=
    match st.fileStore with
    | some records => { st with fileStore := some (records ++ [sample]) }
    | none => st
  pushRawSample st' sample

/-- src/src/storage.rs, `Storage::len`. -/
def Storage.len (st : Storage) : Nat := st.samples.length

/-- src/src/storage.rs, `Storage::latest_sample` (`samples.back()`). -/
def latestSample (st : Storage) : Option Sample := st.samples.getLast?

/-- src/src/storage.rs, `Storage::oldest_sample` (`samples.front()`). -/
def oldestSample (st : Storage) : Option Sample := st.samples.head?

/-- src/src/storage.rs, `Storage::get_last_sample`. -/
def getLastSample (st : Storage) : Option Sample := st.last

/-- Folding a list of raw samples into the store, one `push_raw_sample` at a time. -/
def pushList (st : Storage) (l : List Sample) : Storage := l.foldl pushRawSample st

/-- All store states reachable from a fresh store through the two mutating operations
of src/src/storage.rs (`push_raw_sample` directly, or through `add_measurement`). -/
inductive Reachable (config : Config) : Storage → Prop where
  | init : Reachable config (newStorage config)
  | push (st : Storage) (s : Sample) :
      Reachable config st → Reachable config (pushRawSample st s)
  | add (st : Storage) (temp : ℚ) (now : Nat) :
      Reachable config st → Reachable config (addMeasurement st temp now)

deriving instance DecidableEq for Except

/-- src/src/storage.rs, `StorageError`. -/
inductive StorageError where
  | invalidTimeRange
  | noDataAvailable
deriving DecidableEq

/-- The filter predicate of `Storage::get_samples_in_range` (line 163):
`sample.timestamp >= from && sample.timestamp <= to`. -/
def inRange (f t : Nat) (s : Sample) : Bool :=
  decide (f ≤ s.timestamp ∧ s.timestamp ≤ t)

/-- src/src/storage.rs, `Storage::get_samples_in_range` (lines 156-171). -/
def getSamplesInRange (st : Storage) (f t : Nat) :
    Except StorageError (List Sample) :=
  if f > t then .error .invalidTimeRange
  else
    let found := st.samples.filter (inRange f t)
    if found.isEmpty then .error .noDataAvailable else .ok found

/-- Result type of the aggregation: the two `StorageError` kinds, plus a marker for the
source's `panic!("Looping forever")` (line 210), which aborts the operation rather
than returning. -/
inductive AggError where
  | invalidTimeRange
  | noDataAvailable
  | loopPanic
deriving DecidableEq

/-- The adjacent-pair ordering check of `per_minute_avg_fill` (lines 185-190): true iff
no sample is followed by a strictly older one. -/
def timestampsOrderedBool : List Sample → Bool
  | [] => true
  | [_] => true
  | a :: b :: rest =>
    decide (¬ a.timestamp > b.timestamp) && timestampsOrderedBool (b :: rest)

/-- The `while !fin` loop of `per_minute_avg_fill` (src/src/storage.rs lines 205-248),
with the mutable locals made explicit.  `fuel` is the number of loop iterations still
allowed before the `loops > 1000000` guard fires: the source panics at the start of
iteration 1000001, so the loop is entered with fuel 1000000 and every iteration (a
sample consumption via `continue`, or a bucket closure) spends one unit.  `averagesRev`
holds the emitted entries in reverse (the source pushes at the back of a `Vec`);
`averagesLen` mirrors the source's O(1) `averages.len()`.  When a closed bucket makes
the length exceed 100000 the source `break`s and returns `Ok(averages)`; when the
sample stream is exhausted the final bucket is closed and the loop ends, also
returning `Ok(averages)`. -/
def aggLoop (interval : Nat) :
    Nat → List Sample → Nat → Nat → ℚ → Option ℚ →
    List (Option ℚ) → Nat → Nat → Except AggError (List (Option ℚ))
  | 0, _, _, _, _, _, _, _, _ => .error .loopPanic
  | _ + 1, [], _, count, sum, previousAverage, averagesRev, _, noSamplesCount =>
    let n := if count > 0 then 0 else noSamplesCount + 1
    let p := if count > 0 then some (sum / (count : ℚ)) else previousAverage
    let entry := if n > 5 then none else p
    .ok (entry :: averagesRev).reverse
  | fuel + 1, curr :: rest, timestamp, count, sum, previousAverage,
      averagesRev, averagesLen, noSamplesCount =>
    if curr.timestamp < timestamp + interval then
      aggLoop interval fuel rest timestamp (count + 1) (sum + curr.temperature)
        previousAverage averagesRev averagesLen noSamplesCount
    else
      let n := if count > 0 then 0 else noSamplesCount + 1
      let p := if count > 0 then some (sum / (count : ℚ)) else previousAverage
      let entry := if n > 5 then none else p
      if averagesLen + 1 > 100000 then .ok (entry :: averagesRev).reverse
      else
        aggLoop interval fuel (curr :: rest) (timestamp + interval) 0 0 entry
          (entry :: averagesRev) (averagesLen + 1) n

/-- src/src/storage.rs, `Storage::per_minute_avg_fill` (lines 173-251): range
validation, delegation to `get_samples_in_range`, the adjacent ordering re-check, then
the bucketing loop started at the first in-range sample's timestamp.  The source's
`if samples.is_empty() { return Ok(Vec::new()) }` is kept as the `.ok []` arm even
though `get_samples_in_range` never returns an empty success. -/
def perMinuteAvgFill (st : Storage) (f t : Nat) :
    Except AggError (List (Option ℚ)) :=
  if f > t then .error .invalidTimeRange
  else
    match getSamplesInRange st f t with
    | .error .invalidTimeRange => .error .invalidTimeRange
    | .error .noDataAvailable => .error .noDataAvailable
    | .ok [] => .ok []
    | .ok (s0 :: rest) =>
      if timestampsOrderedBool (s0 :: rest) then
        aggLoop st.config.averagingInterval 1000000 (s0 :: rest) s0.timestamp
          0 0 none [] 0 0
      else .error .invalidTimeRange

/-- src/src/server.rs, `TempsResponse`. -/
structure TempsResponse where
  temperatures : List (Option ℚ)
  latestTime : Option Nat
  oldestTime : Option Nat
  intervalMinutes : Nat
  count : Nat
deriving DecidableEq

/-- src/src/server.rs, the `temps` handler (lines 75-112): `from = now - hours*3600`
(truncated at the epoch in the model), the aggregation result is placed in
`temperatures` exactly as returned, and the latest/oldest buffer timestamps are
reported in whole seconds.  Errors are mapped to `AppError::InternalError` in the
source; the model keeps the storage error kind. -/
def temps (st : Storage) (now hours : Nat) : Except AggError TempsResponse :=
  let f := now - hours * 3600
  match perMinuteAvgFill st f now with
  | .error e => .error e
  | .ok temperatures =>
    .ok { temperatures := temperatures
          latestTime := (latestSample st).map Sample.timestamp
          oldestTime := (oldestSample st).map Sample.timestamp
          intervalMinutes := 1
          count := temperatures.length }

/-! ## The backlog line format (src/src/storage.rs, `Sample::deserialize`, lines 26-49)

The source tokenizes with `str::split_whitespace`, parses the second token with
`u64::from_str` and the third with `f64::from_str`, and then range-checks the
temperature with `temperature > 1000.0 || temperature < -1000.0` — IEEE comparisons.
The model keeps an `F64` value that is either an exact decimal rational, an infinity,
or NaN, with the comparison semantics of IEEE 754 (every comparison against NaN is
false).  Decimal literals are kept exact (binary rounding of `f64` is not modeled; it
can only matter within one ulp of the ±1000.0 bounds, which no claim touches). -/

/-- ASCII whitespace, as recognized by the tokenization on the backlog lines. -/
def isWsChar (c : Char) : Bool := c = ' ' || c = '\t' || c = '\n' || c = '\r'

/-- Accumulator-style splitter: the tokens of a character list, splitting at
whitespace runs and dropping empty tokens, as `str::split_whitespace` does (trimming
first, as the source does, changes nothing). -/
def splitWsAux : List Char → List Char → List (List Char)
  | [], acc => if acc.isEmpty then [] else [acc.reverse]
  | c :: rest, acc =>
    if isWsChar c then
      if acc.isEmpty then splitWsAux rest [] else acc.reverse :: splitWsAux rest []
    else splitWsAux rest (c :: acc)

/-- The whitespace-separated tokens of a line. -/
def splitWsChars (cs : List Char) : List (List Char) := splitWsAux cs []

/-- Numeric value of a digit character. -/
def digitVal (c : Char) : Nat := c.toNat - 48

/-- Value of a digit string. -/
def natOfDigits (cs : List Char) : Nat :=
  cs.foldl (fun acc c => acc * 10 + digitVal c) 0

/-- Rust `u64::from_str`: an optional leading `+`, then one or more ASCII digits, with the
value required to fit in 64 bits (the source's parse fails on overflow). -/
def parseU64 (cs : List Char) : Option Nat :=
  let ds := match cs with
    | '+' :: rest => rest
    | _ => cs
  if ds.isEmpty then none
  else if ds.all Char.isDigit then
    let v := natOfDigits ds
    if v < 2 ^ 64 then some v else none
  else none

/-- An `f64` as far as the backlog claims can observe it: an exact finite value, an
infinity, or NaN. -/
inductive F64 where
  | finite (v : ℚ)
  | posInf
  | negInf
  | nan
deriving DecidableEq

/-- IEEE `>` on the modeled `f64`: false whenever either side is NaN. -/
def F64.gtb : F64 → F64 → Bool
  | .nan, _ => false
  | _, .nan => false
  | .posInf, .posInf => false
  | .posInf, _ => true
  | .negInf, _ => false
  | .finite _, .posInf => false
  | .finite _, .negInf => true
  | .finite a, .finite b => decide (a > b)

/-- IEEE `<` on the modeled `f64`. -/
def F64.ltb (a b : F64) : Bool := F64.gtb b a

/-- Lowercased characters, for the case-insensitive `inf`/`infinity`/`nan` keywords of
`f64::from_str`. -/
def lowerChars (cs : List Char) : List Char := cs.map Char.toLower

/-- The decimal-mantissa grammar of `f64::from_str`: `Digit+`, `Digit+ '.' Digit*` or
`Digit* '.' Digit+`, with the exact rational value. -/
def parseDecMantissa (cs : List Char) : Option ℚ :=
  let intPart := cs.takeWhile Char.isDigit
  let rest := cs.dropWhile Char.isDigit
  match rest with
  | [] => if intPart.isEmpty then none else some ((natOfDigits intPart : ℚ))
  | '.' :: fracPart =>
    if fracPart.all Char.isDigit then
      if intPart.isEmpty && fracPart.isEmpty then none
      else some ((natOfDigits intPart : ℚ) +
        (natOfDigits fracPart : ℚ) / (10 : ℚ) ^ fracPart.length)
    else none
  | _ => none

/-- Split a number token at its first `e`/`E`, keeping the exponent characters when
present. -/
def splitExp : List Char → List Char × Option (List Char)
  | [] => ([], none)
  | c :: rest =>
    if c = 'e' || c = 'E' then ([], some rest)
    else
      let (m, e) := splitExp rest
      (c :: m, e)

/-- The exponent grammar of `f64::from_str`: an optional sign then one or more
digits. -/
def parseExp (cs : List Char) : Option Int :=
  let (sign, ds) := match cs with
    | '+' :: rest => ((1 : Int), rest)
    | '-' :: rest => ((-1 : Int), rest)
    | _ => ((1 : Int), cs)
  if ds.isEmpty then none
  else if ds.all Char.isDigit then some (sign * (natOfDigits ds : Int))
  else none

/-- Rust `f64::from_str` on a token: an optional sign, then a case-insensitive
`inf`/`infinity`/`nan` keyword or a decimal number with optional exponent.  The value
of a numeric literal is kept exact. -/
def parseF64 (cs : List Char) : Option F64 :=
  let (neg, body) := match cs with
    | '-' :: rest => (true, rest)
    | '+' :: rest => (false, rest)
    | _ => (false, cs)
  let low := lowerChars body
  if low = "inf".toList || low = "infinity".toList then
    some (if neg then F64.negInf else F64.posInf)
  else if low = "nan".toList then some F64.nan
  else
    let (mant, expPart) := splitExp body
    match parseDecMantissa mant with
    | none => none
    | some m =>
      let signed : ℚ := if neg then -m else m
      match expPart with
      | none => some (F64.finite signed)
      | some ecs =>
        match parseExp ecs with
        | none => none
        | some e => some (F64.finite (signed * (10 : ℚ) ^ e))

/-- Result of `Sample::deserialize`: the parsed timestamp/temperature, or the
`AppError::ParseError` rejection. -/
inductive DeserializeResult where
  | ok (timestampSecs : Nat) (temperature : F64)
  | parseFailure
deriving DecidableEq

/-- The token-level body of `Sample::deserialize` once the line has exactly three
tokens: the tag check, the `u64` timestamp parse, the `f64` temperature parse, and the
range check `temperature > 1000.0 || temperature < -1000.0` under IEEE comparison. -/
def deserializeFields (tag tsTok tempTok : List Char) : DeserializeResult :=
  if tag ≠ "t1".toList then .parseFailure
  else
    match parseU64 tsTok with
    | none => .parseFailure
    | some ts =>
      match parseF64 tempTok with
      | none => .parseFailure
      | some temp =>
        if F64.gtb temp (F64.finite 1000) || F64.ltb temp (F64.finite (-1000)) then
          .parseFailure
        else .ok ts temp

/-- src/src/storage.rs, `Sample::deserialize` (lines 26-49): a line is tokenized by
whitespace; anything other than exactly three tokens is rejected, and three tokens are
checked by `deserializeFields`. -/
def deserialize (line : String) : DeserializeResult :=
  match splitWsChars line.toList with
  | [tag, tsTok, tempTok] => deserializeFields tag tsTok tempTok
  | _ => .parseFailure

/-! ## Reference formulation of the aggregation policy (for the gap-fill claim)

`bucketizeF` walks the in-range samples against monotonically advancing bucket
boundaries, exactly as the spec describes the bucket assignment, and returns the list
of bucket contents in chronological order (`none` when the iteration budget is
exhausted).  Its fuel accounting matches the loop of `per_minute_avg_fill` one for
one: one unit per consumed sample, one per closed bucket.  `fillPolicy` is the claim's
gap-fill policy, stated independently of the loop: a bucket with samples yields its
arithmetic mean and resets the staleness counter and the carried value; an empty
bucket increments the counter and repeats the carried value, except that once the
counter exceeds 5 the entry (and the carried value, until real samples reset it) is
`none`. -/

/-- Chronological bucket contents: the current bucket starts at `t` and a sample
belongs to it iff its timestamp is below `t + interval`; otherwise the bucket closes
and the next one opens at `t + interval`. -/
def bucketizeF : Nat → Nat → Nat → List Sample → List ℚ → Option (List (List ℚ))
  | 0, _, _, _, _ => none
  | _ + 1, _, _, [], cur => some [cur]
  | fuel + 1, interval, t, s :: rest, cur =>
    if s.timestamp < t + interval then
      bucketizeF fuel interval t rest (cur ++ [s.temperature])
    else
      (bucketizeF fuel interval (t + interval) (s :: rest) []).map (cur :: ·)

/-- Unweighted arithmetic mean of a bucket's temperatures. -/
def bucketAvg (b : List ℚ) : ℚ := b.sum / (b.length : ℚ)

/-- The forward-fill/staleness policy over a list of bucket contents, carrying the
count of consecutive empty buckets and the value to forward-fill. -/
def fillGo : Nat → Option ℚ → List (List ℚ) → List (Option ℚ)
  | _, _, [] => []
  | nEmpty, carry, b :: bs =>
    if b.length > 0 then
      some (bucketAvg b) :: fillGo 0 (some (bucketAvg b)) bs
    else
      let n := nEmpty + 1
      let c := if n > 5 then none else carry
      c :: fillGo n c bs

/-- The claim's gap-fill policy applied to chronological bucket contents, starting
with no carried value and a zero staleness counter. -/
def fillPolicy (bs : List (List ℚ)) : List (Option ℚ) := fillGo 0 none bs

/-- Samples listed in non-decreasing timestamp order. -/
def tsPairwise (l : List Sample) : Prop :=
  l.Pairwise (fun a b => a.timestamp ≤ b.timestamp)

instance (l : List Sample) : Decidable (tsPairwise l) := by
  unfold tsPairwise; infer_instance

/-- Every sample of the list passes the ordering check of `push_raw_sample` when the
pushes start from a store whose `last_sample_time` is the given value. -/
def acceptedFrom : Option Nat → List Sample → Prop
  | _, [] => True
  | none, s :: rest => acceptedFrom (some s.timestamp) rest
  | some u, s :: rest => u ≤ s.timestamp ∧ acceptedFrom (some s.timestamp) rest

/-- The internal invariant of the store: buffer sorted by timestamp, every buffered
timestamp at most `last_sample_time`, and an unset `last_sample_time` means an empty
buffer. -/
def StoreInv (st : Storage) : Prop :=
  tsPairwise st.samples ∧
  (∀ x ∈ st.samples, ∀ u, st.lastSampleTime = some u → x.timestamp ≤ u) ∧
  (st.lastSampleTime = none → st.samples = [])

/-! ## Helper lemmas about the push path -/

lemma pushAccepted_config (st : Storage) (s : Sample) :
    (pushAccepted st s).config = st.config := by
  unfold pushAccepted
  split
  · split <;> rfl
  · rfl

lemma pushAccepted_fileStore (st : Storage) (s : Sample) :
    (pushAccepted st s).fileStore = st.fileStore := by
  unfold pushAccepted
  split
  · split <;> rfl
  · rfl

lemma pushAccepted_lastSampleTime (st : Storage) (s : Sample) :
    (pushAccepted st s).lastSampleTime = some s.timestamp := by
  unfold pushAccepted
  split
  · split <;> rfl
  · rfl

lemma pushRawSample_reject (st : Storage) (s : Sample) (u : Nat)
    (h : st.lastSampleTime = some u) (hlt : s.timestamp < u) :
    pushRawSample st s = st := by
  unfold pushRawSample
  rw [h]
  exact if_pos hlt

lemma pushRawSample_accept (st : Storage) (s : Sample)
    (h : ∀ u, st.lastSampleTime = some u → u ≤ s.timestamp) :
    pushRawSample st s = pushAccepted st s := by
  unfold pushRawSample
  cases hl : st.lastSampleTime with
  | none => rfl
  | some u =>
    exact if_neg (Nat.not_lt.mpr (h u hl))

lemma pushAccepted_cap0 (st : Storage) (s : Sample)
    (h : st.config.maxCapacity = some 0) :
    pushAccepted st s = { st with lastSampleTime := some s.timestamp } := by
  unfold pushAccepted
  rw [h]
  rfl

lemma pushAccepted_capNone (st : Storage) (s : Sample)
    (h : st.config.maxCapacity = none) :
    pushAccepted st s =
      { st with lastSampleTime := some s.timestamp,
                samples := st.samples ++ [s],
                last := some s } := by
  unfold pushAccepted
  rw [h]

lemma pushAccepted_cap_room (st : Storage) (s : Sample) (c : Nat)
    (h : st.config.maxCapacity = some c) (hc : c ≠ 0)
    (hlen : st.samples.length < c) :
    pushAccepted st s =
      { st with lastSampleTime := some s.timestamp,
                samples := st.samples ++ [s],
                last := some s } := by
  simp only [pushAccepted, h]
  rw [if_neg hc, if_neg (Nat.not_le.mpr hlen)]

lemma pushAccepted_cap_full (st : Storage) (s : Sample) (c : Nat)
    (h : st.config.maxCapacity = some c) (hc : c ≠ 0)
    (hlen : c ≤ st.samples.length) :
    pushAccepted st s =
      { st with lastSampleTime := some s.timestamp,
                samples := st.samples.tail ++ [s],
                last := some s } := by
  simp only [pushAccepted, h]
  rw [if_neg hc, if_pos hlen]

lemma pushRawSample_config (st : Storage) (s : Sample) :
    (pushRawSample st s).config = st.config := by
  unfold pushRawSample
  cases st.lastSampleTime with
  | none => exact pushAccepted_config st s
  | some u =>
    show (if u > s.timestamp then st else pushAccepted st s).config = st.config
    by_cases hlt : u > s.timestamp
    · rw [if_pos hlt]
    · rw [if_neg hlt]; exact pushAccepted_config st s

lemma pushRawSample_fileStore (st : Storage) (s : Sample) :
    (pushRawSample st s).fileStore = st.fileStore := by
  unfold pushRawSample
  cases st.lastSampleTime with
  | none => exact pushAccepted_fileStore st s
  | some u =>
    show (if u > s.timestamp then st else pushAccepted st s).fileStore = st.fileStore
    by_cases hlt : u > s.timestamp
    · rw [if_pos hlt]
    · rw [if_neg hlt]; exact pushAccepted_fileStore st s

lemma pushList_nil (st : Storage) : pushList st [] = st := rfl

lemma pushList_cons (st : Storage) (x : Sample) (xs : List Sample) :
    pushList st (x :: xs) = pushList (pushRawSample st x) xs := rfl

/-! ## The sortedness invariant of reachable stores -/

lemma tsPairwise_append_last {l : List Sample} {s : Sample}
    (hp : tsPairwise l) (hb : ∀ x ∈ l, x.timestamp ≤ s.timestamp) :
    tsPairwise (l ++ [s]) := by
  unfold tsPairwise at *
  refine List.pairwise_append.mpr ⟨hp, List.pairwise_singleton _ _, ?_⟩
  intro a ha b hb'
  rw [List.mem_singleton] at hb'
  subst hb'
  exact hb a ha

lemma tsPairwise_tail {l : List Sample} (hp : tsPairwise l) : tsPairwise l.tail :=
  List.Pairwise.sublist (List.tail_sublist l) hp

lemma pushAccepted_inv (st : Storage) (s : Sample)
    (hp : tsPairwise st.samples)
    (hb : ∀ x ∈ st.samples, x.timestamp ≤ s.timestamp) :
    tsPairwise (pushAccepted st s).samples ∧
    ∀ x ∈ (pushAccepted st s).samples, x.timestamp ≤ s.timestamp := by
  cases hc : st.config.maxCapacity with
  | none =>
    rw [pushAccepted_capNone st s hc]
    refine ⟨tsPairwise_append_last hp hb, ?_⟩
    intro x hx
    rcases List.mem_append.mp hx with h | h
    · exact hb x h
    · rw [List.mem_singleton.mp h]
  | some c =>
    by_cases hc0 : c = 0
    · subst hc0
      rw [pushAccepted_cap0 st s hc]
      exact ⟨hp, hb⟩
    · by_cases hlen : st.samples.length < c
      · rw [pushAccepted_cap_room st s c hc hc0 hlen]
        refine ⟨tsPairwise_append_last hp hb, ?_⟩
        intro x hx
        rcases List.mem_append.mp hx with h | h
        · exact hb x h
        · rw [List.mem_singleton.mp h]
      · rw [pushAccepted_cap_full st s c hc hc0 (Nat.le_of_not_lt hlen)]
        refine ⟨tsPairwise_append_last (tsPairwise_tail hp)
          (fun x hx => hb x (List.mem_of_mem_tail hx)), ?_⟩
        intro x hx
        rcases List.mem_append.mp hx with h | h
        · exact hb x (List.mem_of_mem_tail h)
        · rw [List.mem_singleton.mp h]

lemma pushRawSample_inv (st : Storage) (s : Sample) (h : StoreInv st) :
    StoreInv (pushRawSample st s) := by
  obtain ⟨hp, hb, hn⟩ := h
  cases hl : st.lastSampleTime with
  | none =>
    have hnil := hn hl
    have hball : ∀ x ∈ st.samples, x.timestamp ≤ s.timestamp := by
      intro x hx; rw [hnil] at hx; cases hx
    rw [pushRawSample_accept st s (fun u hu => by rw [hl] at hu; cases hu)]
    refine ⟨(pushAccepted_inv st s hp hball).1, ?_, ?_⟩
    · intro x hx u hu
      rw [pushAccepted_lastSampleTime] at hu
      injection hu with hu
      subst hu
      exact (pushAccepted_inv st s hp hball).2 x hx
    · intro hu; rw [pushAccepted_lastSampleTime] at hu; cases hu
  | some u =>
    by_cases hlt : s.timestamp < u
    · rw [pushRawSample_reject st s u hl hlt]; exact ⟨hp, hb, hn⟩
    · have hle : u ≤ s.timestamp := Nat.le_of_not_lt hlt
      have hball : ∀ x ∈ st.samples, x.timestamp ≤ s.timestamp := by
        intro x hx; exact le_trans (hb x hx u hl) hle
      rw [pushRawSample_accept st s
        (fun v hv => by rw [hl] at hv; injection hv with hv; subst hv; exact hle)]
      refine ⟨(pushAccepted_inv st s hp hball).1, ?_, ?_⟩
      · intro x hx v hv
        rw [pushAccepted_lastSampleTime] at hv
        injection hv with hv
        subst hv
        exact (pushAccepted_inv st s hp hball).2 x hx
      · intro hv; rw [pushAccepted_lastSampleTime] at hv; cases hv

lemma addMeasurement_inv (st : Storage) (temp : ℚ) (now : Nat) (h : StoreInv st) :
    StoreInv (addMeasurement st temp now) := by
  unfold addMeasurement
  cases hf : st.fileStore with
  | none => exact pushRawSample_inv st _ h
  | some recs => exact pushRawSample_inv _ _ h

lemma reachable_storeInv (config : Config) (st : Storage) (h : Reachable config st) :
    StoreInv st := by
  induction h with
  | init =>
    refine ⟨List.Pairwise.nil, ?_, ?_⟩
    · intro x hx; cases hx
    · intro _; rfl
  | push st s _ ih => exact pushRawSample_inv st s ih
  | add st temp now _ ih => exact addMeasurement_inv st temp now ih

/-! ## Capacity eviction along a run of accepted pushes -/

lemma acceptedFrom_of_chain :
    ∀ (s : Sample) (l : List Sample),
      List.Chain' (fun a b : Sample => a.timestamp ≤ b.timestamp) (s :: l) →
      acceptedFrom (some s.timestamp) l := by
  intro s l
  induction l generalizing s with
  | nil => intro _; trivial
  | cons y ys ih =>
    intro h
    rw [List.chain'_cons] at h
    exact ⟨h.1, ih y h.2⟩

lemma acceptedFrom_none_of_chain (l : List Sample)
    (h : List.Chain' (fun a b : Sample => a.timestamp ≤ b.timestamp) l) :
    acceptedFrom none l := by
  cases l with
  | nil => trivial
  | cons s rest => exact acceptedFrom_of_chain s rest h

lemma pushList_samples_capped (N : Nat) :
    ∀ (l : List Sample) (st : Storage),
      st.config.maxCapacity = some N →
      st.samples.length ≤ N →
      acceptedFrom st.lastSampleTime l →
      (pushList st l).samples =
        (st.samples ++ l).drop (st.samples.length + l.length - N) := by
  intro l
  induction l with
  | nil =>
    intro st _ hlen _
    rw [pushList_nil]
    have hz : st.samples.length + ([] : List Sample).length - N = 0 := by
      simp only [List.length_nil, Nat.add_zero]
      omega
    rw [hz, List.drop_zero, List.append_nil]
  | cons x xs ih =>
    intro st hcap hlen hacc
    have haccx : ∀ u, st.lastSampleTime = some u → u ≤ x.timestamp := by
      intro u hu
      cases hl : st.lastSampleTime with
      | none => rw [hl] at hu; cases hu
      | some v =>
        rw [hl] at hu
        injection hu with hu
        subst hu
        rw [hl] at hacc
        exact hacc.1
    have haccxs : acceptedFrom (some x.timestamp) xs := by
      cases hl : st.lastSampleTime with
      | none => rw [hl] at hacc; exact hacc
      | some v => rw [hl] at hacc; exact hacc.2
    rw [pushList_cons, pushRawSample_accept st x haccx]
    rcases Nat.eq_zero_or_pos N with hN | hN
    · subst hN
      have hnil : st.samples = [] := List.length_eq_zero.mp (Nat.le_zero.mp hlen)
      rw [pushAccepted_cap0 st x hcap]
      have hIH := ih { st with lastSampleTime := some x.timestamp } hcap hlen haccxs
      rw [hIH]
      simp only [hnil]
      simp
    · by_cases hroom : st.samples.length < N
      · rw [pushAccepted_cap_room st x N hcap (Nat.pos_iff_ne_zero.mp hN) hroom]
        have hIH := ih ({ st with lastSampleTime := some x.timestamp, samples := st.samples ++ [x], last := some x }) hcap (by simpa using hroom) haccxs
        rw [hIH]
        simp only [List.append_assoc, List.singleton_append, List.length_append,
          List.length_cons, List.length_nil]
        congr 1
        omega
      · have hfull : N ≤ st.samples.length := Nat.le_of_not_lt hroom
        have hfe : st.samples.length = N := Nat.le_antisymm hlen hfull
        rw [pushAccepted_cap_full st x N hcap (Nat.pos_iff_ne_zero.mp hN) hfull]
        have hne : st.samples ≠ [] := by
          intro hemp
          rw [hemp] at hfe
          simp at hfe
          omega
        obtain ⟨hd, tl, hcons⟩ := List.exists_cons_of_ne_nil hne
        have htail : st.samples.tail = tl := by rw [hcons]; rfl
        have htl : (st.samples.tail ++ [x]).length ≤ N := by
          rw [List.length_append, List.length_tail, hfe]
          simp
          omega
        have hIH := ih ({ st with lastSampleTime := some x.timestamp, samples := st.samples.tail ++ [x], last := some x }) hcap htl haccxs
        rw [hIH]
        simp only [htail, hcons, List.append_assoc, List.singleton_append,
          List.cons_append, List.length_append, List.length_cons, List.length_nil,
          List.tail_cons, List.nil_append]
        have hN2 : N = tl.length + 1 := by
          rw [hcons] at hfe
          simp at hfe
          omega
        have h1 : tl.length + 1 + xs.length - N = xs.length := by omega
        have h2 : tl.length + 1 + (xs.length + 1) - N = xs.length + 1 := by omega
        rw [h1, h2, List.drop_succ_cons]

lemma pushList_cap0 (config : Config) (hcap : config.maxCapacity = some 0) :
    ∀ (l : List Sample) (st : Storage), st.config = config →
      st.samples = [] → st.last = none →
      (pushList st l).samples = [] ∧ (pushList st l).last = none := by
  intro l
  induction l with
  | nil => intro st _ hs hl; exact ⟨hs, hl⟩
  | cons x xs ih =>
    intro st hc hs hl
    rw [pushList_cons]
    cases hu : st.lastSampleTime with
    | some u =>
      by_cases hlt : x.timestamp < u
      · rw [pushRawSample_reject st x u hu hlt]
        exact ih st hc hs hl
      · rw [pushRawSample_accept st x (fun v hv => by
          rw [hu] at hv; injection hv with hv; subst hv; exact Nat.le_of_not_lt hlt)]
        rw [pushAccepted_cap0 st x (by rw [hc]; exact hcap)]
        exact ih _ hc hs hl
    | none =>
      rw [pushRawSample_accept st x (fun v hv => by rw [hu] at hv; cases hv)]
      rw [pushAccepted_cap0 st x (by rw [hc]; exact hcap)]
      exact ih _ hc hs hl

/-! ## Claim theorems: the store -/

/-- C1: with a configured capacity `N ≥ 1`, after pushing `M > N` samples with
non-decreasing timestamps into a fresh store the buffer holds exactly the last `N`
pushed samples in push order (`l.drop (l.length - N)`); with capacity `0` the buffer
stays empty after every push sequence and `len`, `latest_sample`, `oldest_sample` all
report an empty store. -/
theorem capacity_eviction_keeps_last_n
    (config config0 : Config) (N : Nat) (l l0 : List Sample)
    (hcap : config.maxCapacity = some N) (hN : 1 ≤ N)
    (hchain : List.Chain' (fun a b : Sample => a.timestamp ≤ b.timestamp) l)
    (hM : N < l.length)
    (hcap0 : config0.maxCapacity = some 0) :
    (pushList (newStorage config) l).samples = l.drop (l.length - N) ∧
    (pushList (newStorage config0) l0).samples = [] ∧
    (pushList (newStorage config0) l0).len = 0 ∧
    latestSample (pushList (newStorage config0) l0) = none ∧
    oldestSample (pushList (newStorage config0) l0) = none := by
  have h1 := pushList_samples_capped N l (newStorage config) hcap
    (by simp [newStorage]) (acceptedFrom_none_of_chain l hchain)
  have h0 := pushList_cap0 config0 hcap0 l0 (newStorage config0) rfl rfl rfl
  refine ⟨?_, h0.1, ?_, ?_, ?_⟩
  · rw [h1]
    simp [newStorage]
  · unfold Storage.len
    rw [h0.1]
    rfl
  · unfold latestSample
    rw [h0.1]
    rfl
  · unfold oldestSample
    rw [h0.1]
    rfl

theorem capacity_eviction_keeps_last_n_witness :
    (pushList (newStorage ⟨some 1, 60, false⟩) [⟨0, 7⟩, ⟨1, 8⟩]).samples =
        [⟨1, 8⟩] ∧
      latestSample (pushList (newStorage ⟨some 0, 60, false⟩) [⟨0, 9⟩]) = none := by
  have h := capacity_eviction_keeps_last_n ⟨some 1, 60, false⟩ ⟨some 0, 60, false⟩
    1 [⟨0, 7⟩, ⟨1, 8⟩] [⟨0, 9⟩] rfl (by decide)
    (by constructor <;> simp) (by decide) rfl
  exact ⟨h.1, h.2.2.2.1⟩

/-- C2: every store state reachable from a fresh store through
`push_raw_sample`/`add_measurement` keeps the buffer in non-decreasing timestamp
order; a sample strictly older than the last accepted timestamp is rejected without
mutating the state, while an equal-or-newer one passes the ordering check and updates
`last_sample_time`. -/
theorem reachable_samples_sorted (config : Config) (st : Storage)
    (h : Reachable config st) :
    tsPairwise st.samples ∧
    (∀ (s : Sample) (u : Nat), st.lastSampleTime = some u → s.timestamp < u →
      pushRawSample st s = st) ∧
    (∀ (s : Sample) (u : Nat), st.lastSampleTime = some u → u ≤ s.timestamp →
      (pushRawSample st s).lastSampleTime = some s.timestamp) := by
  refine ⟨(reachable_storeInv config st h).1, ?_, ?_⟩
  · intro s u hu hlt
    exact pushRawSample_reject st s u hu hlt
  · intro s u hu hle
    rw [pushRawSample_accept st s (fun v hv => by
      rw [hu] at hv; injection hv with hv; subst hv; exact hle)]
    exact pushAccepted_lastSampleTime st s

theorem reachable_samples_sorted_witness :
    tsPairwise (pushRawSample (pushRawSample
      (newStorage ⟨none, 60, false⟩) ⟨2, 5⟩) ⟨4, 6⟩).samples := by
  exact (reachable_samples_sorted ⟨none, 60, false⟩ _
    (Reachable.push _ _ (Reachable.push _ _ Reachable.init))).1

/-- C9: a push whose timestamp is strictly older than `last_sample_time` is rejected
and the whole store state — hence `len`, `latest_sample`, `oldest_sample`,
`get_last_sample` and `last_sample_time` — is unchanged. -/
theorem push_older_sample_is_noop (st : Storage) (s : Sample) (u : Nat)
    (hlast : st.lastSampleTime = some u) (holder : s.timestamp < u) :
    pushRawSample st s = st ∧
    (pushRawSample st s).len = st.len ∧
    latestSample (pushRawSample st s) = latestSample st ∧
    oldestSample (pushRawSample st s) = oldestSample st ∧
    getLastSample (pushRawSample st s) = getLastSample st ∧
    (pushRawSample st s).lastSampleTime = st.lastSampleTime := by
  have h := pushRawSample_reject st s u hlast holder
  exact ⟨h, by rw [h], by rw [h], by rw [h], by rw [h], by rw [h]⟩

theorem push_older_sample_is_noop_witness :
    pushRawSample (pushRawSample (newStorage ⟨none, 60, false⟩) ⟨10, 20⟩) ⟨5, 21⟩ =
      pushRawSample (newStorage ⟨none, 60, false⟩) ⟨10, 20⟩ := by
  exact (push_older_sample_is_noop
    (pushRawSample (newStorage ⟨none, 60, false⟩) ⟨10, 20⟩) ⟨5, 21⟩ 10
    rfl (by decide)).1

/-- C10: with capacity `Some(0)`, a push that passes the ordering check still updates
`last_sample_time` to the pushed timestamp while storing nothing (the only state
change), so a later strictly-older push is rejected as a no-op, and
`latest_sample`/`oldest_sample`/`get_last_sample` stay `None` after any push
sequence from a fresh capacity-0 store. -/
theorem cap0_push_updates_last_time (config : Config)
    (hcap : config.maxCapacity = some 0) :
    (∀ (st : Storage) (s : Sample), st.config = config →
      (∀ u, st.lastSampleTime = some u → u ≤ s.timestamp) →
      pushRawSample st s = { st with lastSampleTime := some s.timestamp }) ∧
    (∀ (st : Storage) (s s' : Sample), st.config = config →
      (∀ u, st.lastSampleTime = some u → u ≤ s.timestamp) →
      s'.timestamp < s.timestamp →
      pushRawSample (pushRawSample st s) s' = pushRawSample st s) ∧
    (∀ l : List Sample,
      latestSample (pushList (newStorage config) l) = none ∧
      oldestSample (pushList (newStorage config) l) = none ∧
      getLastSample (pushList (newStorage config) l) = none) := by
  have hpush : ∀ (st : Storage) (s : Sample), st.config = config →
      (∀ u, st.lastSampleTime = some u → u ≤ s.timestamp) →
      pushRawSample st s = { st with lastSampleTime := some s.timestamp } := by
    intro st s hc hacc
    rw [pushRawSample_accept st s hacc]
    exact pushAccepted_cap0 st s (by rw [hc]; exact hcap)
  refine ⟨hpush, ?_, ?_⟩
  · intro st s s' hc hacc hlt
    rw [hpush st s hc hacc]
    exact pushRawSample_reject _ s' s.timestamp rfl hlt
  · intro l
    have h0 := pushList_cap0 config hcap l (newStorage config) rfl rfl rfl
    refine ⟨?_, ?_, ?_⟩
    · unfold latestSample; rw [h0.1]; rfl
    · unfold oldestSample; rw [h0.1]; rfl
    · unfold getLastSample; rw [h0.2]

theorem cap0_push_updates_last_time_witness :
    pushRawSample (newStorage ⟨some 0, 60, false⟩) ⟨5, 1⟩ =
      { newStorage ⟨some 0, 60, false⟩ with lastSampleTime := some 5 } ∧
    getLastSample (pushList (newStorage ⟨some 0, 60, false⟩) [⟨5, 1⟩]) = none := by
  have h := cap0_push_updates_last_time ⟨some 0, 60, false⟩ rfl
  exact ⟨h.1 (newStorage ⟨some 0, 60, false⟩) ⟨5, 1⟩ rfl
    (fun u hu => by cases hu), (h.2.2 [⟨5, 1⟩]).2.2⟩

/-! ## The aggregation loop: basic facts -/

lemma aggLoop_error_is_panic (interval : Nat) :
    ∀ (fuel : Nat) (samples : List Sample) (t count : Nat) (sum : ℚ)
      (prevAvg : Option ℚ) (accRev : List (Option ℚ)) (accLen nE : Nat)
      (e : AggError),
      aggLoop interval fuel samples t count sum prevAvg accRev accLen nE =
        .error e →
      e = .loopPanic := by
  intro fuel
  induction fuel with
  | zero =>
    intro samples t count sum prevAvg accRev accLen nE e h
    simp only [aggLoop] at h
    injection h with h
    exact h.symm
  | succ fuel ih =>
    intro samples t count sum prevAvg accRev accLen nE e h
    cases samples with
    | nil =>
      simp only [aggLoop] at h
      exact Except.noConfusion h
    | cons curr rest =>
      simp only [aggLoop] at h
      by_cases hc : curr.timestamp < t + interval
      · rw [if_pos hc] at h
        exact ih _ _ _ _ _ _ _ _ _ h
      · rw [if_neg hc] at h
        by_cases hb : accLen + 1 > 100000
        · rw [if_pos hb] at h
          exact Except.noConfusion h
        · rw [if_neg hb] at h
          exact ih _ _ _ _ _ _ _ _ _ h

lemma timestampsOrderedBool_of_pairwise :
    ∀ (l : List Sample), tsPairwise l → timestampsOrderedBool l = true := by
  intro l
  induction l with
  | nil => intro _; rfl
  | cons a rest ih =>
    intro h
    have h' : List.Pairwise (fun a b : Sample => a.timestamp ≤ b.timestamp)
        (a :: rest) := h
    cases rest with
    | nil => rfl
    | cons b rest2 =>
      simp only [timestampsOrderedBool, Bool.and_eq_true, decide_eq_true_eq]
      constructor
      · have hab := (List.pairwise_cons.mp h').1 b (by simp)
        omega
      · exact ih (List.pairwise_cons.mp h').2

/-- C5: `get_samples_in_range` (and `per_minute_avg_fill`, which delegates to it)
reports `InvalidTimeRange` exactly when `from > to`, and `NoDataAvailable` exactly
when `from ≤ to` and no stored sample lies in `[from, to]`; the two kinds are
distinct and a valid-but-empty range is never an empty success.  The sortedness
hypothesis holds in every reachable store state (`reachable_storeInv`). -/
theorem range_error_taxonomy (st : Storage) (f t : Nat)
    (hsorted : tsPairwise st.samples) :
    (getSamplesInRange st f t = .error .invalidTimeRange ↔ t < f) ∧
    (getSamplesInRange st f t = .error .noDataAvailable ↔
      (f ≤ t ∧ ∀ s ∈ st.samples, ¬(f ≤ s.timestamp ∧ s.timestamp ≤ t))) ∧
    (∀ l, getSamplesInRange st f t = .ok l → l ≠ []) ∧
    (perMinuteAvgFill st f t = .error .invalidTimeRange ↔ t < f) ∧
    (perMinuteAvgFill st f t = .error .noDataAvailable ↔
      (f ≤ t ∧ ∀ s ∈ st.samples, ¬(f ≤ s.timestamp ∧ s.timestamp ≤ t))) := by
  have hfc : st.samples.filter (inRange f t) = [] ↔
      ∀ s ∈ st.samples, ¬(f ≤ s.timestamp ∧ s.timestamp ≤ t) := by
    rw [List.filter_eq_nil_iff]
    simp [inRange]
  by_cases hft : f > t
  · have hg : getSamplesInRange st f t = .error .invalidTimeRange := by
      unfold getSamplesInRange; rw [if_pos hft]
    have hp : perMinuteAvgFill st f t = .error .invalidTimeRange := by
      unfold perMinuteAvgFill; rw [if_pos hft]
    refine ⟨?_, ?_, ?_, ?_, ?_⟩
    · simp [hg, hft]
    · rw [hg]
      constructor
      · intro h; cases h
      · intro h; omega
    · intro l hl; rw [hg] at hl; cases hl
    · simp [hp, hft]
    · rw [hp]
      constructor
      · intro h; cases h
      · intro h; omega
  · have hle : f ≤ t := Nat.le_of_not_lt hft
    cases hfil : st.samples.filter (inRange f t) with
    | nil =>
      have hg : getSamplesInRange st f t = .error .noDataAvailable := by
        unfold getSamplesInRange
        rw [if_neg hft]
        simp [hfil]
      have hp : perMinuteAvgFill st f t = .error .noDataAvailable := by
        unfold perMinuteAvgFill
        rw [if_neg hft, hg]
      refine ⟨?_, ?_, ?_, ?_, ?_⟩
      · rw [hg]
        constructor
        · intro h; cases h
        · intro h; omega
      · rw [hg]
        constructor
        · intro _; exact ⟨hle, hfc.mp hfil⟩
        · intro _; rfl
      · intro l hl; rw [hg] at hl; cases hl
      · rw [hp]
        constructor
        · intro h; cases h
        · intro h; omega
      · rw [hp]
        constructor
        · intro _; exact ⟨hle, hfc.mp hfil⟩
        · intro _; rfl
    | cons s0 rest =>
      have hg : getSamplesInRange st f t = .ok (s0 :: rest) := by
        unfold getSamplesInRange
        rw [if_neg hft]
        simp [hfil]
      have hord : timestampsOrderedBool (s0 :: rest) = true := by
        have hpf : List.Pairwise (fun a b : Sample => a.timestamp ≤ b.timestamp)
            (st.samples.filter (inRange f t)) :=
          List.Pairwise.filter _ hsorted
        rw [hfil] at hpf
        exact timestampsOrderedBool_of_pairwise _ hpf
      have hp : perMinuteAvgFill st f t =
          aggLoop st.config.averagingInterval 1000000 (s0 :: rest)
            s0.timestamp 0 0 none [] 0 0 := by
        unfold perMinuteAvgFill
        rw [if_neg hft, hg]
        simp [hord]
      have hnot : ∀ e,
          aggLoop st.config.averagingInterval 1000000 (s0 :: rest)
            s0.timestamp 0 0 none [] 0 0 = .error e → e = .loopPanic :=
        fun e he => aggLoop_error_is_panic _ _ _ _ _ _ _ _ _ _ e he
      have hne : ¬(∀ s ∈ st.samples, ¬(f ≤ s.timestamp ∧ s.timestamp ≤ t)) := by
        intro hall
        rw [← hfc] at hall
        rw [hfil] at hall
        cases hall
      refine ⟨?_, ?_, ?_, ?_, ?_⟩
      · rw [hg]
        constructor
        · intro h; cases h
        · intro h; omega
      · rw [hg]
        constructor
        · intro h; cases h
        · intro h; exact absurd h.2 hne
      · intro l hl
        rw [hg] at hl
        injection hl with hl
        rw [← hl]
        simp
      · constructor
        · intro h
          rw [hp] at h
          exact AggError.noConfusion (hnot _ h)
        · intro h; omega
      · constructor
        · intro h
          rw [hp] at h
          exact AggError.noConfusion (hnot _ h)
        · intro h; exact absurd h.2 hne

theorem range_error_taxonomy_witness :
    (getSamplesInRange (pushRawSample (newStorage ⟨none, 60, false⟩) ⟨5, 2⟩) 9 3 =
        .error .invalidTimeRange ↔ 3 < 9) ∧
    (perMinuteAvgFill (pushRawSample (newStorage ⟨none, 60, false⟩) ⟨5, 2⟩) 6 8 =
        .error .noDataAvailable ↔
      (6 ≤ 8 ∧ ∀ s ∈ (pushRawSample (newStorage ⟨none, 60, false⟩) ⟨5, 2⟩).samples,
        ¬(6 ≤ s.timestamp ∧ s.timestamp ≤ 8))) := by
  have h1 := range_error_taxonomy
    (pushRawSample (newStorage ⟨none, 60, false⟩) ⟨5, 2⟩) 9 3 (by decide)
  have h2 := range_error_taxonomy
    (pushRawSample (newStorage ⟨none, 60, false⟩) ⟨5, 2⟩) 6 8 (by decide)
  exact ⟨h1.1, h2.2.2.2.2⟩

/-! ## The aggregation loop refines bucketization plus the gap-fill policy -/

lemma fillGo_cons_pos (nE : Nat) (carry : Option ℚ) (b : List ℚ)
    (bs : List (List ℚ)) (hb : b.length > 0) :
    fillGo nE carry (b :: bs) =
      some (bucketAvg b) :: fillGo 0 (some (bucketAvg b)) bs := by
  simp only [fillGo]
  rw [if_pos hb]

lemma fillGo_cons_zero (nE : Nat) (carry : Option ℚ) (b : List ℚ)
    (bs : List (List ℚ)) (hb : ¬ b.length > 0) :
    fillGo nE carry (b :: bs) =
      (if nE + 1 > 5 then none else carry) ::
        fillGo (nE + 1) (if nE + 1 > 5 then none else carry) bs := by
  simp only [fillGo]
  rw [if_neg hb]

lemma aggLoop_bucketize (interval : Nat) :
    ∀ (fuel : Nat) (samples : List Sample) (t : Nat) (cur : List ℚ)
      (prevAvg : Option ℚ) (accRev : List (Option ℚ)) (nE : Nat)
      (bs : List (List ℚ)),
      bucketizeF fuel interval t samples cur = some bs →
      accRev.length + bs.length ≤ 100000 →
      aggLoop interval fuel samples t cur.length cur.sum prevAvg accRev
        accRev.length nE =
        .ok (accRev.reverse ++ fillGo nE prevAvg bs) := by
  intro fuel
  induction fuel with
  | zero =>
    intro samples t cur prevAvg accRev nE bs hb _
    simp only [bucketizeF] at hb
    exact Option.noConfusion hb
  | succ fuel ih =>
    intro samples t cur prevAvg accRev nE bs hb hlen
    cases samples with
    | nil =>
      simp only [bucketizeF] at hb
      injection hb with hb
      subst hb
      simp only [aggLoop]
      by_cases hcur : cur.length > 0
      · rw [fillGo_cons_pos _ _ _ _ hcur]
        simp [hcur, bucketAvg, fillGo, List.reverse_cons]
      · rw [fillGo_cons_zero _ _ _ _ hcur]
        simp [hcur, fillGo, List.reverse_cons]
    | cons s rest =>
      simp only [bucketizeF] at hb
      by_cases hc : s.timestamp < t + interval
      · rw [if_pos hc] at hb
        simp only [aggLoop]
        rw [if_pos hc]
        have hIH := ih rest t (cur ++ [s.temperature]) prevAvg accRev nE bs hb hlen
        simpa [List.sum_append, List.length_append] using hIH
      · rw [if_neg hc] at hb
        rw [Option.map_eq_some'] at hb
        obtain ⟨bs', hbs', rfl⟩ := hb
        have hlen1 : ¬(accRev.length + 1 > 100000) := by
          simp only [List.length_cons] at hlen
          omega
        simp only [aggLoop]
        rw [if_neg hc, if_neg hlen1]
        by_cases hcur : cur.length > 0
        · have hN0 : (if cur.length > 0 then 0 else nE + 1) = 0 := if_pos hcur
          have hIH := ih (s :: rest) (t + interval) []
            (some (cur.sum / (cur.length : ℚ)))
            (some (cur.sum / (cur.length : ℚ)) :: accRev) 0 bs' hbs'
            (by simp only [List.length_cons] at hlen ⊢; omega)
          simp only [List.length_nil, List.sum_nil, List.length_cons] at hIH
          rw [hN0, if_neg (by omega : ¬ (0:Nat) > 5), if_pos hcur, hIH,
            fillGo_cons_pos _ _ _ _ hcur]
          simp [List.reverse_cons, List.append_assoc, bucketAvg]
        · have hN0 : (if cur.length > 0 then 0 else nE + 1) = nE + 1 := if_neg hcur
          have hIH := ih (s :: rest) (t + interval) []
            (if nE + 1 > 5 then none else prevAvg)
            ((if nE + 1 > 5 then none else prevAvg) :: accRev) (nE + 1) bs' hbs'
            (by simp only [List.length_cons] at hlen ⊢; omega)
          simp only [List.length_nil, List.sum_nil, List.length_cons] at hIH
          rw [hN0, if_neg hcur, hIH, fillGo_cons_zero _ _ _ _ hcur]
          simp [List.reverse_cons, List.append_assoc]

/-- C3: when the in-range samples are nonempty and sorted (as in every reachable
store), `per_minute_avg_fill` returns exactly the chronological bucket contents
(`bucketizeF`, started at the first in-range sample's timestamp) passed through the
gap-fill policy `fillPolicy`: a nonempty bucket yields its mean and resets the
staleness counter, an empty bucket forward-fills the previous resolved average while
the count of consecutive empty buckets is at most 5, and every empty bucket beyond
that yields `none` until a bucket with samples resets the counter.  The
`bs.length ≤ 100000` bound keeps the run below the emitted-bucket ceiling. -/
theorem per_minute_avg_fill_gap_policy (st : Storage) (f t : Nat)
    (s0 : Sample) (rest : List Sample) (bs : List (List ℚ))
    (hsorted : tsPairwise st.samples)
    (hft : ¬ f > t)
    (hfil : st.samples.filter (inRange f t) = s0 :: rest)
    (hb : bucketizeF 1000000 st.config.averagingInterval s0.timestamp
      (s0 :: rest) [] = some bs)
    (hlen : bs.length ≤ 100000) :
    perMinuteAvgFill st f t = .ok (fillPolicy bs) := by
  have hg : getSamplesInRange st f t = .ok (s0 :: rest) := by
    unfold getSamplesInRange
    rw [if_neg hft]
    simp [hfil]
  have hord : timestampsOrderedBool (s0 :: rest) = true := by
    have hpf : List.Pairwise (fun a b : Sample => a.timestamp ≤ b.timestamp)
        (st.samples.filter (inRange f t)) := List.Pairwise.filter _ hsorted
    rw [hfil] at hpf
    exact timestampsOrderedBool_of_pairwise _ hpf
  unfold perMinuteAvgFill
  rw [if_neg hft, hg]
  simp only [hord, if_true]
  have hmain := aggLoop_bucketize st.config.averagingInterval 1000000
    (s0 :: rest) s0.timestamp [] none [] 0 bs hb (by simpa using hlen)
  simpa [fillPolicy] using hmain

theorem per_minute_avg_fill_gap_policy_witness :
    perMinuteAvgFill
        (pushList (newStorage ⟨none, 60, false⟩) [⟨0, 10⟩, ⟨600, 20⟩]) 0 600 =
      .ok (fillPolicy [[10], [], [], [], [], [], [], [], [], [], [20]]) := by
  exact per_minute_avg_fill_gap_policy
    (pushList (newStorage ⟨none, 60, false⟩) [⟨0, 10⟩, ⟨600, 20⟩]) 0 600
    ⟨0, 10⟩ [⟨600, 20⟩] [[10], [], [], [], [], [], [], [], [], [], [20]]
    (by decide) (by decide) (by decide!) (by decide!) (by decide)

/-! ## The iteration ceilings -/

lemma aggLoop_ok_length (interval : Nat) :
    ∀ (fuel : Nat) (samples : List Sample) (t count : Nat) (sum : ℚ)
      (prevAvg : Option ℚ) (accRev : List (Option ℚ)) (accLen nE : Nat)
      (l : List (Option ℚ)),
      accLen = accRev.length →
      accLen ≤ 100000 →
      aggLoop interval fuel samples t count sum prevAvg accRev accLen nE = .ok l →
      l.length ≤ 100001 := by
  intro fuel
  induction fuel with
  | zero =>
    intro samples t count sum prevAvg accRev accLen nE l _ _ h
    simp only [aggLoop] at h
    exact Except.noConfusion h
  | succ fuel ih =>
    intro samples t count sum prevAvg accRev accLen nE l heq hacc h
    cases samples with
    | nil =>
      simp only [aggLoop] at h
      injection h with h
      subst h
      simp only [List.length_reverse, List.length_cons]
      omega
    | cons curr rest =>
      simp only [aggLoop] at h
      by_cases hc : curr.timestamp < t + interval
      · rw [if_pos hc] at h
        exact ih _ _ _ _ _ _ _ _ _ heq hacc h
      · rw [if_neg hc] at h
        by_cases hb : accLen + 1 > 100000
        · rw [if_pos hb] at h
          injection h with h
          subst h
          simp only [List.length_reverse, List.length_cons]
          omega
        · rw [if_neg hb] at h
          exact ih _ _ _ _ _ _ _ _ _
            (by simp only [List.length_cons]; omega) (by omega) h

/-- C6 (amended): any successful `per_minute_avg_fill` result has at most 100001
buckets: when the emitted-bucket ceiling (10^5) is crossed the loop breaks after
pushing entry 100001 and returns the already-emitted buckets as a *successful*,
truncated result (only the separate 10^6 loop-iteration ceiling aborts, as the
`loopPanic` marker). -/
theorem per_minute_result_bounded (st : Storage) (f t : Nat)
    (l : List (Option ℚ))
    (h : perMinuteAvgFill st f t = .ok l) :
    l.length ≤ 100001 := by
  unfold perMinuteAvgFill at h
  by_cases hft : f > t
  · rw [if_pos hft] at h
    cases h
  · rw [if_neg hft] at h
    cases hg : getSamplesInRange st f t with
    | error e =>
      rw [hg] at h
      cases e <;> cases h
    | ok found =>
      rw [hg] at h
      cases found with
      | nil =>
        simp only at h
        injection h with h
        subst h
        simp
      | cons s0 rest =>
        by_cases hord : timestampsOrderedBool (s0 :: rest) = true
        · simp only [hord, if_true] at h
          exact aggLoop_ok_length st.config.averagingInterval 1000000
            (s0 :: rest) s0.timestamp 0 0 none [] 0 0 l rfl (by omega) h
        · simp only [hord] at h
          simp at h

theorem per_minute_result_bounded_witness :
    perMinuteAvgFill (pushList (newStorage ⟨none, 120, false⟩) [⟨0, 4⟩]) 0 0 =
        .ok [some 4] ∧
      ([some (4 : ℚ)] : List (Option ℚ)).length ≤ 100001 :=
  ⟨by decide!, per_minute_result_bounded
    (pushList (newStorage ⟨none, 120, false⟩) [⟨0, 4⟩]) 0 0 [some 4] (by decide!)⟩

lemma aggLoop_interval0_stuck (s : Sample) :
    ∀ (fuel : Nat) (accRev : List (Option ℚ)) (nE : Nat),
      accRev.length ≤ 100000 →
      100000 < accRev.length + fuel →
      ∃ l, aggLoop 0 fuel [s] s.timestamp 0 0 none accRev accRev.length nE =
        .ok l ∧ l.length = 100001 := by
  intro fuel
  induction fuel with
  | zero =>
    intro accRev nE h1 h2
    omega
  | succ fuel ih =>
    intro accRev nE h1 h2
    simp only [aggLoop]
    rw [if_neg (show ¬ s.timestamp < s.timestamp + 0 by omega)]
    have h0 : ¬ (0 : Nat) > 0 := by omega
    rw [if_neg h0, if_neg h0, ite_self]
    by_cases hb : accRev.length + 1 > 100000
    · refine ⟨((none : Option ℚ) :: accRev).reverse, ?_, ?_⟩
      · rw [if_pos hb]
      · simp only [List.length_reverse, List.length_cons]
        omega
    · rw [if_neg hb]
      have hrec := ih ((none : Option ℚ) :: accRev) (nE + 1)
        (by simp only [List.length_cons]; omega)
        (by simp only [List.length_cons]; omega)
      simp only [List.length_cons] at hrec
      simpa using hrec

/-- C6 (counterexample): with `averaging_interval = 0` and one sample in range — the
claim's own example input — the emitted-bucket ceiling is crossed and
`per_minute_avg_fill` returns `Ok` with exactly 100001 entries: a successful,
silently truncated sequence, not a fatal abort of the operation. -/
theorem per_minute_truncation_counterexample :
    ∃ l, perMinuteAvgFill (pushRawSample (newStorage ⟨none, 0, false⟩) ⟨0, 1⟩) 0 0 =
      .ok l ∧ l.length = 100001 := by
  have hg : getSamplesInRange (pushRawSample (newStorage ⟨none, 0, false⟩) ⟨0, 1⟩)
      0 0 = .ok [⟨0, 1⟩] := by decide!
  have hp : perMinuteAvgFill (pushRawSample (newStorage ⟨none, 0, false⟩) ⟨0, 1⟩)
      0 0 = aggLoop 0 1000000 [⟨0, 1⟩] 0 0 0 none [] 0 0 := by
    unfold perMinuteAvgFill
    rw [if_neg (show ¬ (0 : Nat) > 0 by omega), hg]
    simp [timestampsOrderedBool]
    rfl
  rw [hp]
  have hstuck := aggLoop_interval0_stuck ⟨0, 1⟩ 1000000 [] 0 (by decide) (by decide)
  simpa using hstuck

/-! ## The query surface -/

/-- C4 (amended): the `temperatures` field of the `/temps` response is exactly the
chronological (oldest-bucket-first) sequence that `per_minute_avg_fill` computes; the
server performs no reversal, so the caller receives the buckets oldest-first, not
most-recent-first. -/
theorem temps_returns_chronological (st : Storage) (now hours : Nat)
    (l : List (Option ℚ))
    (h : perMinuteAvgFill st (now - hours * 3600) now = .ok l) :
    Except.map TempsResponse.temperatures (temps st now hours) = .ok l := by
  simp only [temps, h, Except.map]

theorem temps_returns_chronological_witness :
    Except.map TempsResponse.temperatures
        (temps (pushList (newStorage ⟨none, 60, false⟩) [⟨0, 10⟩, ⟨60, 20⟩]) 60 1) =
      .ok [some 10, some 20] :=
  temps_returns_chronological
    (pushList (newStorage ⟨none, 60, false⟩) [⟨0, 10⟩, ⟨60, 20⟩]) 60 1
    [some 10, some 20] (by decide!)

/-- C4 (counterexample): for a store whose chronological aggregation over the queried
window is `[some 10, some 20]`, the `/temps` response carries `temperatures =
[some 10, some 20]` — not its reverse `[some 20, some 10]` as the claim requires, and
the two orders differ on this input. -/
theorem temps_not_reversed_counterexample :
    Except.map TempsResponse.temperatures
        (temps (pushList (newStorage ⟨none, 60, false⟩) [⟨0, 11⟩, ⟨60, 21⟩]) 60 1) =
      .ok [some 11, some 21] ∧
    perMinuteAvgFill (pushList (newStorage ⟨none, 60, false⟩) [⟨0, 11⟩, ⟨60, 21⟩])
        0 60 = .ok [some 11, some 21] ∧
    List.reverse [some (11 : ℚ), some 21] ≠ [some (11 : ℚ), some 21] :=
  ⟨by decide!, by decide!, by decide⟩

/-! ## The backlog line format -/

lemma rangeCheck_false_iff (v : F64) :
    (F64.gtb v (F64.finite 1000) || F64.ltb v (F64.finite (-1000))) = false ↔
    (v = F64.nan ∨ ∃ q, v = F64.finite q ∧ -1000 ≤ q ∧ q ≤ 1000) := by
  cases v with
  | nan => simp [F64.gtb, F64.ltb]
  | posInf => simp [F64.gtb, F64.ltb]
  | negInf => simp [F64.gtb, F64.ltb]
  | finite q =>
    simp only [F64.gtb, F64.ltb, Bool.or_eq_false_iff, decide_eq_false_iff_not,
      not_lt, F64.finite.injEq, gt_iff_lt, false_or]
    constructor
    · rintro ⟨h1, h2⟩
      exact Or.inr ⟨q, rfl, h2, h1⟩
    · rintro (h | ⟨q', hq, h1, h2⟩)
      · exact F64.noConfusion h
      · subst hq
        exact ⟨h2, h1⟩

/-- C7 (amended): `Sample::deserialize` accepts a line iff it has exactly three
whitespace-separated tokens, the first equal to `t1`, the second parsing as a `u64`,
and the third parsing as an `f64` that is either NaN or a finite value within
`[-1000, 1000]`.  `±inf` and out-of-range finite values are rejected by the IEEE
comparisons `> 1000.0` / `< -1000.0`, but — contrary to the claim — NaN passes both
comparisons (each is false) and the line is accepted. -/
theorem deserialize_accepts_iff (line : String) :
    (∃ ts temp, deserialize line = .ok ts temp) ↔
    (∃ tsTok tempTok ts v,
      splitWsChars line.toList = ["t1".toList, tsTok, tempTok] ∧
      parseU64 tsTok = some ts ∧
      parseF64 tempTok = some v ∧
      (v = F64.nan ∨ ∃ q, v = F64.finite q ∧ -1000 ≤ q ∧ q ≤ 1000)) := by
  rcases hsp : splitWsChars line.toList with _ | ⟨tag, _ | ⟨tsTok, _ | ⟨tempTok, _ | ⟨x4, rest4⟩⟩⟩⟩
  · have h1 : deserialize line = .parseFailure := by
      unfold deserialize; rw [hsp]
    simp [h1]
  · have h1 : deserialize line = .parseFailure := by
      unfold deserialize; rw [hsp]
    simp [h1]
  · have h1 : deserialize line = .parseFailure := by
      unfold deserialize; rw [hsp]
    simp [h1]
  · have h1 : deserialize line = deserializeFields tag tsTok tempTok := by
      unfold deserialize; rw [hsp]
    rw [h1]
    by_cases htag : tag = "t1".toList
    · subst htag
      cases hts : parseU64 tsTok with
      | none => simp [deserializeFields, hts]
      | some ts =>
        cases htemp : parseF64 tempTok with
        | none => simp [deserializeFields, hts, htemp]
        | some v =>
          by_cases hr : (F64.gtb v (F64.finite 1000) ||
              F64.ltb v (F64.finite (-1000))) = true
          · have hno : ¬(v = F64.nan ∨
                ∃ q, v = F64.finite q ∧ -1000 ≤ q ∧ q ≤ 1000) := by
              intro hcond
              have h2 := (rangeCheck_false_iff v).mpr hcond
              rw [hr] at h2
              exact Bool.noConfusion h2
            simp only [deserializeFields, hts, htemp, hr, hno]
            simp [deserializeFields, hts, htemp, hr]
            refine ⟨?_, ?_⟩
            · intro hn
              subst hn
              simp [F64.gtb, F64.ltb] at hr
            · intro x hx h1
              subst hx
              simp [F64.gtb, F64.ltb] at hr
              rcases hr with h | h
              · exact h
              · linarith
          · have hr' : (F64.gtb v (F64.finite 1000) ||
                F64.ltb v (F64.finite (-1000))) = false := by
              rwa [Bool.not_eq_true] at hr
            simp [deserializeFields, hts, htemp, hr']
            exact ⟨tsTok, tempTok, ⟨rfl, rfl⟩, ⟨ts, hts⟩, v, htemp,
              (rangeCheck_false_iff v).mp hr'⟩
    · have h2 : deserializeFields tag tsTok tempTok = .parseFailure := by
        unfold deserializeFields
        rw [if_pos htag]
      rw [h2]
      constructor
      · rintro ⟨ts', temp', h⟩
        exact DeserializeResult.noConfusion h
      · rintro ⟨tsTok', tempTok', ts', v', heq, _, _, _⟩
        injection heq with hx _
        exact absurd hx htag
  · have h1 : deserialize line = .parseFailure := by
      unfold deserialize; rw [hsp]
    simp [h1]

/-- C7 (counterexample): the backlog line `t1 5 NaN` has a non-finite third token, so
the claim requires rejection, but `deserialize` accepts it: `NaN > 1000.0` and
`NaN < -1000.0` are both false under IEEE comparison, so the range check passes and
the parsed NaN temperature is returned as `Ok`. -/
theorem deserialize_nan_counterexample :
    deserialize "t1 5 NaN" = .ok 5 F64.nan := by rfl

/-! ## The backing file -/

/-- C8 (amended): when a backing file is configured, `add_measurement` appends one
record for every measurement — before, and regardless of whether, the sample is
accepted into the in-memory buffer (the source writes the serialized line before
calling `push_raw_sample`); when no file is configured nothing is written. -/
theorem add_measurement_always_appends (st : Storage) (temp : ℚ) (now : Nat) :
    (∀ records, st.fileStore = some records →
      (addMeasurement st temp now).fileStore =
        some (records ++ [{ timestamp := now, temperature := temp }])) ∧
    (st.fileStore = none → (addMeasurement st temp now).fileStore = none) := by
  constructor
  · intro records hf
    simp only [addMeasurement, hf]
    rw [pushRawSample_fileStore]
  · intro hf
    simp only [addMeasurement, hf]
    rw [pushRawSample_fileStore, hf]

theorem add_measurement_always_appends_witness :
    (addMeasurement (newStorage ⟨some 5, 60, true⟩) 21 7).fileStore =
      some [{ timestamp := 7, temperature := 21 }] :=
  (add_measurement_always_appends (newStorage ⟨some 5, 60, true⟩) 21 7).1 [] rfl

/-- C8 (counterexample): with capacity `0` and a backing file configured, the pushed
sample is dropped from the buffer (never accepted: the buffer and the cached last
sample stay empty), yet `add_measurement` still appends the record to the file — so
"a record is appended iff the sample is accepted into the buffer" is false. -/
theorem add_measurement_appends_rejected_counterexample :
    (addMeasurement (newStorage ⟨some 0, 60, true⟩) 20 5).samples = [] ∧
    latestSample (addMeasurement (newStorage ⟨some 0, 60, true⟩) 20 5) = none ∧
    getLastSample (addMeasurement (newStorage ⟨some 0, 60, true⟩) 20 5) = none ∧
    (addMeasurement (newStorage ⟨some 0, 60, true⟩) 20 5).fileStore =
      some [{ timestamp := 5, temperature := 20 }] :=
  ⟨rfl, rfl, rfl, rfl⟩

end HeaterMonitor
